import Mathlib

/-!
Shallow embedding of the lang-news scraper content pipeline.

The repository contains two implementations of the HTML-to-Markdown
content extractor:
  - a shared utility module (file part_003) exporting htmlToMarkdown;
  - the Haskell blog scraper (file part_001), with its own htmlToMarkdown,
    extractArticleContent, inferTags, and parseArchivePage; the sample
    generator (file part_000) repeats inferTags and the truncation and
    archive-sorting logic verbatim.
Strings are modelled as Lean String values (lists of characters); the
JavaScript operations used by the source (trim, replace with the regexes
that appear in the code, includes, toLowerCase, substring, sort, slice)
are given explicit executable definitions below.
-/

namespace LangNews

/-- Characters matched by the JavaScript whitespace class, as used by
the regexes and by String.prototype.trim in the source. The ASCII
whitespace characters and the common Unicode space characters of the
ECMAScript WhiteSpace and LineTerminator productions are listed. -/
def isJsSpace (c : Char) : Bool :=
  c == ' ' || c == '\t' || c == '\n' || c == '\r' || c == '\x0b' || c == '\x0c' ||
  c == '\u00a0' || c == '\u1680' || ('\u2000' ≤ c && c ≤ '\u200a') ||
  c == '\u2028' || c == '\u2029' || c == '\u202f' || c == '\u205f' ||
  c == '\u3000' || c == '\ufeff'

/-- Models String.prototype.trim: remove leading and trailing
whitespace characters. -/
def jsTrim (s : String) : String :=
  String.mk (((s.data.dropWhile isJsSpace).reverse.dropWhile isJsSpace).reverse)

/-- Character-list core of text.replace with a global regex matching one
or more whitespace characters, replacing each maximal whitespace run by
a single space. A whitespace character followed by another whitespace
character is dropped; the last whitespace character of a run is emitted
as one space. -/
def collapseWsGo : List Char → List Char
  | [] => []
  | [c] => if isJsSpace c then [' '] else [c]
  | a :: b :: rest =>
    if isJsSpace a then
      (if isJsSpace b then collapseWsGo (b :: rest)
       else ' ' :: collapseWsGo (b :: rest))
    else a :: collapseWsGo (b :: rest)

/-- Models text.replace of every whitespace run by a single space, the
text-node normalization of the shared extractor. -/
def collapseWs (s : String) : String :=
  String.mk (collapseWsGo s.data)

/-- Models String.prototype.toLowerCase over the characters of the
string. -/
def jsToLower (s : String) : String :=
  String.mk (s.data.map Char.toLower)

/-- A node of the parsed HTML document tree, as exposed by the DOM
library used by the source: a text node (nodeType 3), a comment or
other non-element node (ignored by the source, which only tests
nodeType 3 and 1), or an element with a tag name, an attribute list and
an ordered child list. -/
inductive Node where
  | text (content : String)
  | comment (content : String)
  | elem (tag : String) (attrs : List (String × String)) (children : List Node)

/-- Child list of a node; non-element nodes have no children here
(text and comment children never have child nodes in the DOM). -/
def childNodes : Node → List Node
  | .text _ => []
  | .comment _ => []
  | .elem _ _ children => children

/-- Models Element.getAttribute: the value of the named attribute, or
none when the attribute is absent. -/
def getAttribute (attrs : List (String × String)) (name : String) : Option String :=
  attrs.lookup name

mutual
/-- Models node.textContent for a single node: the concatenation of all
descendant text nodes in document order (comments contribute nothing
to the textContent of an element). -/
def textContentNode : Node → String
  | .text c => c
  | .comment _ => ""
  | .elem _ _ children => textContentNodes children
/-- Flattened text of a list of sibling nodes, in document order. -/
def textContentNodes : List Node → String
  | [] => ""
  | n :: ns => textContentNode n ++ textContentNodes ns
end

namespace Common

mutual
/-- Contribution of one child node to the output of htmlToMarkdown in
the shared scraper utility module (file part_003). Text nodes whose
trimmed content is nonempty are appended with whitespace runs collapsed
to single spaces; element nodes dispatch on the lowercased tag name
exactly as the switch statement of the source does. -/
def htmlToMarkdownNode : Node → String
  | .text c => if jsTrim c ≠ "" then collapseWs c else ""
  | .comment _ => ""
  | .elem tag attrs children =>
    match jsToLower tag with
    | "h1" => "\n# " ++ jsTrim (textContentNodes children) ++ "\n\n"
    | "h2" => "\n## " ++ jsTrim (textContentNodes children) ++ "\n\n"
    | "h3" => "\n### " ++ jsTrim (textContentNodes children) ++ "\n\n"
    | "h4" => "\n#### " ++ jsTrim (textContentNodes children) ++ "\n\n"
    | "p" =>
      let pContent := jsTrim (htmlToMarkdownNodes children)
      if pContent ≠ "" then pContent ++ "\n\n" else ""
    | "a" =>
      "[" ++ jsTrim (textContentNodes children) ++ "](" ++
        ((getAttribute attrs ("href")).getD "") ++ ")"
    | "strong" => "**" ++ jsTrim (textContentNodes children) ++ "**"
    | "b" => "**" ++ jsTrim (textContentNodes children) ++ "**"
    | "em" => "*" ++ jsTrim (textContentNodes children) ++ "*"
    | "i" => "*" ++ jsTrim (textContentNodes children) ++ "*"
    | "code" => "`" ++ jsTrim (textContentNodes children) ++ "`"
    | "pre" => "\n```\n" ++ jsTrim (textContentNodes children) ++ "\n```\n\n"
    | "ul" => "\n" ++ htmlToMarkdownNodes children
    | "ol" => "\n" ++ htmlToMarkdownNodes children
    | "li" => "- " ++ jsTrim (htmlToMarkdownNodes children) ++ "\n"
    | "br" => "\n"
    | "img" => ""
    | "video" => ""
    | "script" => ""
    | "style" => ""
    | "span" => htmlToMarkdownNodes children
    | _ => htmlToMarkdownNodes children
/-- Concatenated contributions of a list of sibling nodes, in document
order: the loop over element.childNodes of the source. -/
def htmlToMarkdownNodes : List Node → String
  | [] => ""
  | n :: ns => htmlToMarkdownNode n ++ htmlToMarkdownNodes ns
end

/-- Models htmlToMarkdown of the shared scraper utility module: the
accumulated markdown of the child nodes of the given element. -/
def htmlToMarkdown (element : Node) : String :=
  htmlToMarkdownNodes (childNodes element)

end Common

namespace Haskell

mutual
/-- Contribution of one child node to the output of htmlToMarkdown in
the Haskell blog scraper (file part_001). It differs from the shared
module only on text nodes: the trimmed text, when nonempty, is appended
followed by one space, with no collapsing of internal whitespace. -/
def htmlToMarkdownNode : Node → String
  | .text c => if jsTrim c ≠ "" then jsTrim c ++ " " else ""
  | .comment _ => ""
  | .elem tag attrs children =>
    match jsToLower tag with
    | "h1" => "\n# " ++ jsTrim (textContentNodes children) ++ "\n\n"
    | "h2" => "\n## " ++ jsTrim (textContentNodes children) ++ "\n\n"
    | "h3" => "\n### " ++ jsTrim (textContentNodes children) ++ "\n\n"
    | "h4" => "\n#### " ++ jsTrim (textContentNodes children) ++ "\n\n"
    | "p" =>
      let pContent := jsTrim (htmlToMarkdownNodes children)
      if pContent ≠ "" then pContent ++ "\n\n" else ""
    | "a" =>
      "[" ++ jsTrim (textContentNodes children) ++ "](" ++
        ((getAttribute attrs ("href")).getD "") ++ ")"
    | "strong" => "**" ++ jsTrim (textContentNodes children) ++ "**"
    | "b" => "**" ++ jsTrim (textContentNodes children) ++ "**"
    | "em" => "*" ++ jsTrim (textContentNodes children) ++ "*"
    | "i" => "*" ++ jsTrim (textContentNodes children) ++ "*"
    | "code" => "`" ++ jsTrim (textContentNodes children) ++ "`"
    | "pre" => "\n```\n" ++ jsTrim (textContentNodes children) ++ "\n```\n\n"
    | "ul" => "\n" ++ htmlToMarkdownNodes children
    | "ol" => "\n" ++ htmlToMarkdownNodes children
    | "li" => "- " ++ jsTrim (htmlToMarkdownNodes children) ++ "\n"
    | "br" => "\n"
    | "img" => ""
    | "video" => ""
    | "script" => ""
    | "style" => ""
    | "span" => htmlToMarkdownNodes children
    | _ => htmlToMarkdownNodes children
/-- Concatenated contributions of a list of sibling nodes, in document
order: the loop over element.childNodes of the source. -/
def htmlToMarkdownNodes : List Node → String
  | [] => ""
  | n :: ns => htmlToMarkdownNode n ++ htmlToMarkdownNodes ns
end

/-- Models htmlToMarkdown of the Haskell blog scraper: the accumulated
markdown of the child nodes of the given element. -/
def htmlToMarkdown (element : Node) : String :=
  htmlToMarkdownNodes (childNodes element)

end Haskell

/-- Character-list core of markdown.replace collapsing every run of
three or more newlines to exactly two, the first cleanup step of
extractArticleContent: while three consecutive newlines remain at the
cursor, one is dropped; everything else is copied. This reproduces the
left-to-right greedy replacement of the global regex, which rewrites
each maximal run of at least three newlines to two. -/
def collapseNlGo : List Char → List Char
  | '\n' :: '\n' :: '\n' :: rest => collapseNlGo ('\n' :: '\n' :: rest)
  | c :: rest => c :: collapseNlGo rest
  | [] => []

/-- Character-list core of the second cleanup replace of
extractArticleContent, rewriting a newline, a nonempty whitespace run
and a further newline to two newlines. Following the greedy regex with
backtracking on the final newline, a match at a newline extends through
the following whitespace run up to the last newline inside it, and that
newline must not be the immediate successor, so at least two whitespace
characters are consumed after the initial newline; scanning resumes
after the consumed characters. -/
def collapseBlankGo : List Char → List Char
  | [] => []
  | c :: rest =>
    if c == '\n' then
      let run := rest.takeWhile isJsSpace
      let afterRev := run.reverse.takeWhile (fun x => !(x == '\n'))
      if 2 ≤ run.length - afterRev.length then
        '\n' :: '\n' :: collapseBlankGo (afterRev.reverse ++ rest.dropWhile isJsSpace)
      else c :: collapseBlankGo rest
    else c :: collapseBlankGo rest
termination_by l => l.length
decreasing_by
  · have hrun : (rest.takeWhile isJsSpace).length + (rest.dropWhile isJsSpace).length
        = rest.length := by
      have hsplit := congrArg List.length (List.takeWhile_append_dropWhile isJsSpace rest)
      rw [List.length_append] at hsplit
      exact hsplit
    have hafter :
        ((rest.takeWhile isJsSpace).reverse.takeWhile (fun x => !(x == '\n'))).length
          ≤ (rest.takeWhile isJsSpace).length := by
      have hsub := @List.takeWhile_sublist Char ((rest.takeWhile isJsSpace).reverse)
        (fun x => !(x == '\n'))
      simpa using hsub.length_le
    simp only [List.length_append, List.length_reverse, List.length_cons]
    omega
  · simp
  · simp

/-- The cleanup pipeline applied by extractArticleContent to the raw
markdown: the two global replaces followed by trim. -/
def cleanupMarkdown (markdown : String) : String :=
  jsTrim (String.mk (collapseBlankGo (collapseNlGo markdown.data)))

/-- The fixed truncation notice appended when the cleaned content
exceeds 3000 characters. -/
def TRUNCATION_NOTICE : String :=
  "\n\n...\n\n*Content truncated. Please visit the original article for the full post.*"

/-- The fixed fallback sentence returned when the cleaned content is
empty (and when the document or article element cannot be found). -/
def FALLBACK_TEXT : String :=
  "Content not available. Please visit the original article for full details."

/-- The length-limiting step of extractArticleContent: content longer
than 3000 characters is cut to its first 3000 characters and the fixed
truncation notice is appended; shorter content passes unchanged. -/
def truncateContent (cleaned : String) : String :=
  if 3000 < cleaned.length then String.mk (cleaned.data.take 3000) ++ TRUNCATION_NOTICE
  else cleaned

/-- Models extractArticleContent of the Haskell scraper from the point
where the article element has been located and the caller-side noise
removal (first h1 and metadata span) has been applied: convert the
article to markdown, clean up whitespace, truncate over-long content,
and substitute the fallback sentence when the result is empty. -/
def extractArticleContent (article : Node) : String :=
  let markdown := Haskell.htmlToMarkdown article
  let cleaned := cleanupMarkdown markdown
  let limited := truncateContent cleaned
  if limited = "" then FALLBACK_TEXT else limited

/-- Whether the first character list begins the second, character for
character. -/
def beginsWith : List Char → List Char → Bool
  | [], _ => true
  | _ :: _, [] => false
  | a :: as, b :: bs => a == b && beginsWith as bs

/-- Whether the first character list occurs contiguously anywhere in
the second. -/
def containsAt : List Char → List Char → Bool
  | pat, [] => beginsWith pat []
  | pat, c :: rest => beginsWith pat (c :: rest) || containsAt pat rest

/-- Models String.prototype.includes of JavaScript. -/
def includes (s sub : String) : Bool :=
  containsAt sub.data s.data

/-- Models inferTags, identical in the Haskell scraper and the sample
generator: keyword checks over the lowercased concatenation of title
and url push tags in a fixed order, and the tag news is substituted
when no check fires. The sequence of conditional pushes is modelled as
the concatenation, in push order, of a conditional singleton list per
check. -/
def inferTags (title url : String) : List String :=
  let text := jsToLower (title ++ " " ++ url)
  let tags :=
    (if includes text ("ghc") || includes text ("compiler") then [("compiler")] else []) ++
    (if includes text ("release") || includes text ("announce") then [("release")] else []) ++
    (if includes text ("stack") then [("stack")] else []) ++
    (if includes text ("cabal") then [("cabal")] else []) ++
    (if includes text ("hls") || includes text ("language server") then [("tooling")] else []) ++
    (if includes text ("foundation") then [("community")] else []) ++
    (if includes text ("library") || includes text ("package") then [("library")] else []) ++
    (if includes text ("tutorial") || includes text ("guide") || includes text ("how to")
      then [("tutorial")] else []) ++
    (if includes text ("performance") || includes text ("optimization")
      then [("performance")] else []) ++
    (if includes text ("security") then [("security")] else []) ++
    (if includes text ("gsoc") || includes text ("google summer") then [("gsoc")] else []) ++
    (if includes text ("working group") || includes text ("committee")
      then [("governance")] else [])
  if tags = [] then [("news")] else tags

/-- The article record produced by the scrapers. -/
structure Article where
  title : String
  date : String
  url : String
  content : String
  tags : List String

/-- Case-insensitive match of a literal character sequence, for the i
flag of the archive entry regex: on success, the remaining input. -/
def litCI : List Char → List Char → Option (List Char)
  | [], l => some l
  | _ :: _, [] => none
  | p :: ps, c :: cs => if p.toLower == c.toLower then litCI ps cs else none

/-- Greedy match of at least one whitespace character. Each occurrence
in the entry regex is followed by a non-whitespace literal, so the
maximal run is consumed with no backtracking. -/
def wsPlus : List Char → Option (List Char)
  | [] => none
  | c :: rest => if isJsSpace c then some (rest.dropWhile isJsSpace) else none

/-- Greedy match of any number of whitespace characters; both
occurrences in the entry regex are followed by non-whitespace
literals, so the maximal run is consumed with no backtracking. -/
def wsStar (l : List Char) : List Char := l.dropWhile isJsSpace

/-- Greedy capture of one or more characters other than the stop
character. Each capture group of the entry regex is followed by a
literal starting with its excluded character, so the maximal run is
captured with no backtracking; the following literal then checks the
stop character itself. -/
def captureUntil (stop : Char) (l : List Char) : Option (List Char × List Char) :=
  let cap := l.takeWhile (fun c => !(c == stop))
  if cap.isEmpty then none else some (cap, l.dropWhile (fun c => !(c == stop)))

/-- First half of one attempt to match the archive entry regex of
parseArchivePage at the head of the input: the opening paragraph tag
and the anchor with its href capture and link text capture, through the
closing anchor tag. On success, the url and title captures with the
input remaining after the closing anchor tag. -/
def matchEntryLink (l : List Char) : Option ((List Char × List Char) × List Char) := do
  let r1 ← litCI ("<p><a").data l
  let r2 ← wsPlus r1
  let r3 ← litCI ("href=\"").data r2
  let (url, r4) ← captureUntil '"' r3
  let r5 ← litCI ("\">").data r4
  let (title, r6) ← captureUntil '<' r5
  let r7 ← litCI ("</a>").data r6
  pure ((url, title), r7)

/-- Second half of one attempt to match the archive entry regex: the
dash separator with optional whitespace, the time element with its
datetime capture and display text, and the closing tags. On success,
the datetime capture with the input remaining after the match. -/
def matchEntryTime (l : List Char) : Option (List Char × List Char) := do
  let r9 ← litCI ("-").data (wsStar l)
  let r11 ← litCI ("<time").data (wsStar r9)
  let r12 ← wsPlus r11
  let r13 ← litCI ("datetime=\"").data r12
  let (datetime, r14) ← captureUntil '"' r13
  let r15 ← litCI ("\">").data r14
  let (_, r16) ← captureUntil '<' r15
  let r17 ← litCI ("</time></p>").data r16
  pure (datetime, r17)

/-- One attempt to match the archive entry regex of parseArchivePage at
the head of the input: a paragraph holding a link and a time element.
On success, the url, title and datetime captures together with the
input remaining after the match. -/
def matchEntry (l : List Char) : Option ((String × String × String) × List Char) := do
  let ((url, title), r7) ← matchEntryLink l
  let (datetime, r17) ← matchEntryTime r7
  pure ((String.mk url, String.mk title, String.mk datetime), r17)

theorem litCI_length_le (p : List Char) :
    ∀ l r, litCI p l = some r → r.length ≤ l.length := by
  induction p with
  | nil =>
    intro l r h
    simp only [litCI, Option.some.injEq] at h
    subst h
    exact Nat.le_refl _
  | cons a as ih =>
    intro l r h
    cases l with
    | nil => simp [litCI] at h
    | cons c cs =>
      simp only [litCI] at h
      by_cases hc : (a.toLower == c.toLower) = true
      · rw [if_pos hc] at h
        exact Nat.le_trans (ih cs r h) (Nat.le_succ _)
      · rw [if_neg hc] at h
        exact absurd h (by simp)

theorem litCI_length_lt (a : Char) (as : List Char) (l r : List Char)
    (h : litCI (a :: as) l = some r) : r.length < l.length := by
  cases l with
  | nil => simp [litCI] at h
  | cons c cs =>
    simp only [litCI] at h
    by_cases hc : (a.toLower == c.toLower) = true
    · rw [if_pos hc] at h
      exact Nat.lt_succ_of_le (litCI_length_le as cs r h)
    · rw [if_neg hc] at h
      exact absurd h (by simp)

theorem wsPlus_length_le (l r : List Char) (h : wsPlus l = some r) :
    r.length ≤ l.length := by
  cases l with
  | nil => simp [wsPlus] at h
  | cons c cs =>
    simp only [wsPlus] at h
    by_cases hc : isJsSpace c = true
    · rw [if_pos hc] at h
      simp only [Option.some.injEq] at h
      subst h
      exact Nat.le_trans (List.dropWhile_sublist _).length_le (Nat.le_succ _)
    · rw [if_neg hc] at h
      exact absurd h (by simp)

theorem wsStar_length_le (l : List Char) : (wsStar l).length ≤ l.length :=
  (List.dropWhile_sublist _).length_le

theorem captureUntil_length_le (stop : Char) (l : List Char) (cap r : List Char)
    (h : captureUntil stop l = some (cap, r)) : r.length ≤ l.length := by
  simp only [captureUntil] at h
  by_cases hc : (l.takeWhile (fun c => !(c == stop))).isEmpty = true
  · rw [if_pos hc] at h
    exact absurd h (by simp)
  · rw [if_neg hc] at h
    simp only [Option.some.injEq, Prod.mk.injEq] at h
    obtain ⟨-, hr⟩ := h
    subst hr
    exact (List.dropWhile_sublist _).length_le

theorem matchEntryLink_length_lt (l : List Char) (caps : List Char × List Char)
    (r : List Char) (h : matchEntryLink l = some (caps, r)) : r.length < l.length := by
  unfold matchEntryLink at h
  simp only [bind, Option.bind_eq_some, Option.pure_def, Option.some.injEq, Prod.mk.injEq,
    Prod.exists] at h
  obtain ⟨r1, h1, r2, h2, r3, h3, url, r4, h4, r5, h5, title, r6, h6, r7, h7, -, hr⟩ := h
  subst hr
  have e1 := litCI_length_lt _ _ _ _ h1
  have e2 := wsPlus_length_le _ _ h2
  have e3 := litCI_length_le _ _ _ h3
  have e4 := captureUntil_length_le _ _ _ _ h4
  have e5 := litCI_length_le _ _ _ h5
  have e6 := captureUntil_length_le _ _ _ _ h6
  have e7 := litCI_length_le _ _ _ h7
  omega

theorem matchEntryTime_length_le (l : List Char) (date r : List Char)
    (h : matchEntryTime l = some (date, r)) : r.length ≤ l.length := by
  unfold matchEntryTime at h
  simp only [bind, Option.bind_eq_some, Option.pure_def, Option.some.injEq, Prod.mk.injEq,
    Prod.exists] at h
  obtain ⟨r9, h9, r11, h11, r12, h12, r13, h13, datetime, r14, h14, r15, h15, disp, r16, h16,
    r17, h17, -, hr⟩ := h
  subst hr
  have w0 := wsStar_length_le l
  have e9 := litCI_length_le _ _ _ h9
  have w9 := wsStar_length_le r9
  have e11 := litCI_length_le _ _ _ h11
  have e12 := wsPlus_length_le _ _ h12
  have e13 := litCI_length_le _ _ _ h13
  have e14 := captureUntil_length_le _ _ _ _ h14
  have e15 := litCI_length_le _ _ _ h15
  have e16 := captureUntil_length_le _ _ _ _ h16
  have e17 := litCI_length_le _ _ _ h17
  omega

theorem matchEntry_length_lt (l : List Char) (caps : String × String × String)
    (r : List Char) (h : matchEntry l = some (caps, r)) : r.length < l.length := by
  unfold matchEntry at h
  simp only [bind, Option.bind_eq_some, Option.pure_def, Option.some.injEq, Prod.mk.injEq,
    Prod.exists] at h
  obtain ⟨url, title, r7, h7, datetime, r17, h17, -, hr⟩ := h
  subst hr
  have e7 := matchEntryLink_length_lt _ _ _ h7
  have e17 := matchEntryTime_length_le _ _ _ h17
  omega

/-- The exec loop of parseArchivePage over the archive page text: at
each position, the entry regex is tried; on a match, the captured url,
title and datetime are recorded and scanning resumes after the match,
otherwise it resumes one character further on. -/
def scanEntries : List Char → List (String × String × String)
  | [] => []
  | c :: rest =>
    match h : matchEntry (c :: rest) with
    | some (caps, r) => caps :: scanEntries r
    | none => scanEntries rest
termination_by l => l.length
decreasing_by
  · exact matchEntry_length_lt _ _ _ h
  · simp

/-- Models parseArchivePage of the sample generator, whose regex loop
the DOM version of the Haskell scraper mirrors: every matched archive
entry becomes an Article (title trimmed, relative urls resolved against
the blog origin, tags inferred from title and raw url), and the
collected articles are sorted by date, newest first, taking the first
ten. The sort comparator of the source is the localeCompare of the
second date against the first; localeCompare performs locale- and
implementation-defined collation, so the collation order is taken here
as a parameter cle (the locale order, as a boolean less-or-equal on
strings) rather than fixed to any concrete order, and the stable sort
of the JavaScript runtime is modelled by the stable mergeSort. -/
def parseArchivePage (cle : String → String → Bool) (html : String) : List Article :=
  let articles := (scanEntries html.data).map (fun caps =>
    let url := caps.1
    let title := jsTrim caps.2.1
    let datetime := caps.2.2
    let fullUrl := if url.startsWith ("http") then url
      else ("https://blog.haskell.org") ++ url
    Article.mk title datetime fullUrl ("") (inferTags title url))
  (List.mergeSort articles (fun a b => cle b.date a.date)).take 10

/-- The hash marks opening a markdown heading of the given level. -/
def hashes (level : Nat) : String := String.mk (List.replicate level '#')

/-- Whether a character list is in collapsed form: every whitespace
character in it is a plain space, and no space is followed by another
whitespace character. -/
def wsCanon : List Char → Bool
  | [] => true
  | [c] => !(isJsSpace c) || c == ' '
  | a :: b :: rest => ((!(isJsSpace a)) || (a == ' ' && !(isJsSpace b))) && wsCanon (b :: rest)

theorem collapseWsGo_cons_of_not_space (b : Char) (rest : List Char)
    (h : isJsSpace b = false) : collapseWsGo (b :: rest) = b :: collapseWsGo rest := by
  cases rest with
  | nil => simp [collapseWsGo, h]
  | cons r rs => rw [collapseWsGo]; simp [h]

theorem wsCanon_collapseWsGo (l : List Char) : wsCanon (collapseWsGo l) = true := by
  induction l using collapseWsGo.induct with
  | case1 => rfl
  | case2 c h => simp [collapseWsGo, wsCanon, h]
  | case3 c h => simp [collapseWsGo, wsCanon, h]
  | case4 a b rest ha hb ih =>
    rw [collapseWsGo]
    simpa [ha, hb] using ih
  | case5 a b rest ha hb ih =>
    rw [collapseWsGo]
    simp only [ha, if_true, eq_false_of_ne_true hb, if_false, Bool.false_eq_true]
    rw [collapseWsGo_cons_of_not_space b rest (eq_false_of_ne_true hb)] at ih ⊢
    simp only [wsCanon] at ih ⊢
    simp [eq_false_of_ne_true hb, ih]
  | case6 a b rest ha ih =>
    rw [collapseWsGo]
    simp only [eq_false_of_ne_true ha, Bool.false_eq_true, if_false]
    cases hX : collapseWsGo (b :: rest) with
    | nil => simp [wsCanon, eq_false_of_ne_true ha]
    | cons x xs =>
      rw [hX] at ih
      simp [wsCanon, eq_false_of_ne_true ha, ih]

theorem collapseWsGo_of_wsCanon (l : List Char) (h : wsCanon l = true) : collapseWsGo l = l := by
  induction l using collapseWsGo.induct with
  | case1 => rfl
  | case2 c hc =>
    simp only [wsCanon, hc] at h
    simp only [collapseWsGo, hc, if_true]
    simp only [Bool.not_true, Bool.false_or, beq_iff_eq] at h
    rw [h]
  | case3 c hc => simp [collapseWsGo, hc]
  | case4 a b rest ha hb ih =>
    simp [wsCanon, ha, hb] at h
  | case5 a b rest ha hb ih =>
    simp only [wsCanon, ha, Bool.not_true, Bool.false_or, eq_false_of_ne_true hb,
      Bool.not_false, Bool.and_true, Bool.and_eq_true, beq_iff_eq] at h
    obtain ⟨hsp, hrest⟩ := h
    rw [collapseWsGo]
    simp only [ha, if_true, eq_false_of_ne_true hb, Bool.false_eq_true, if_false]
    rw [ih hrest, hsp]
  | case6 a b rest ha ih =>
    simp only [wsCanon, eq_false_of_ne_true ha, Bool.not_false, Bool.true_or,
      Bool.true_and, Bool.and_eq_true] at h
    rw [collapseWsGo]
    simp only [eq_false_of_ne_true ha, Bool.false_eq_true, if_false]
    rw [ih h]

theorem collapseWs_idempotent (s : String) : collapseWs (collapseWs s) = collapseWs s :=
  congrArg String.mk (collapseWsGo_of_wsCanon _ (wsCanon_collapseWsGo s.data))

theorem common_nodes_append (xs ys : List Node) :
    Common.htmlToMarkdownNodes (xs ++ ys) =
      Common.htmlToMarkdownNodes xs ++ Common.htmlToMarkdownNodes ys := by
  induction xs with
  | nil =>
    rw [List.nil_append, Common.htmlToMarkdownNodes]
    rfl
  | cons n ns ih =>
    rw [List.cons_append, Common.htmlToMarkdownNodes, ih, Common.htmlToMarkdownNodes,
      String.append_assoc]

theorem haskell_nodes_append (xs ys : List Node) :
    Haskell.htmlToMarkdownNodes (xs ++ ys) =
      Haskell.htmlToMarkdownNodes xs ++ Haskell.htmlToMarkdownNodes ys := by
  induction xs with
  | nil =>
    rw [List.nil_append, Haskell.htmlToMarkdownNodes]
    rfl
  | cons n ns ih =>
    rw [List.cons_append, Haskell.htmlToMarkdownNodes, ih, Haskell.htmlToMarkdownNodes,
      String.append_assoc]

/-- C1 (counterexample): for the heading element h2 with text Title the
extractors emit a leading newline, so the output is not the claimed
string without one; a heading with surrounding whitespace in its text
also shows the text is trimmed rather than kept in full. -/
theorem heading_claim_counterexample :
    Common.htmlToMarkdownNode (.elem ("h2") [] [.text ("Title")]) = "\n## Title\n\n" ∧
    Common.htmlToMarkdownNode (.elem ("h2") [] [.text ("Title")]) ≠ "## Title\n\n" ∧
    Haskell.htmlToMarkdownNode (.elem ("h2") [] [.text ("Title")]) ≠ "## Title\n\n" ∧
    Common.htmlToMarkdownNode (.elem ("h2") [] [.text (" Title ")]) = "\n## Title\n\n" ∧
    Common.htmlToMarkdownNode (.elem ("h2") [] [.text (" Title ")]) ≠ "##  Title \n\n" := by
  decide

/-- C1 (amended): for every heading element of level 1 to 4, both
extractors emit a newline, then the hash marks of the level, a space,
the trimmed flattened text content of the element, and two trailing
newlines; the children are flattened via textContent, not recursed
into. -/
theorem heading_emission (tag : String) (level : Nat)
    (h : (jsToLower tag, level) ∈
      [(("h1" : String), 1), (("h2" : String), 2), (("h3" : String), 3), (("h4" : String), 4)])
    (attrs : List (String × String)) (children : List Node) :
    Common.htmlToMarkdownNode (.elem tag attrs children) =
      "\n" ++ hashes level ++ " " ++ jsTrim (textContentNodes children) ++ "\n\n" ∧
    Haskell.htmlToMarkdownNode (.elem tag attrs children) =
      "\n" ++ hashes level ++ " " ++ jsTrim (textContentNodes children) ++ "\n\n" := by
  simp only [List.mem_cons, List.not_mem_nil, or_false, Prod.mk.injEq] at h
  rcases h with ⟨ht, hl⟩ | ⟨ht, hl⟩ | ⟨ht, hl⟩ | ⟨ht, hl⟩ <;> subst hl <;>
    exact ⟨by rw [Common.htmlToMarkdownNode, ht]; rfl,
      by rw [Haskell.htmlToMarkdownNode, ht]; rfl⟩

theorem heading_emission_witness :
    Common.htmlToMarkdownNode (.elem ("h2") [] [.text ("Title")]) =
      "\n" ++ hashes 2 ++ " " ++ jsTrim (textContentNodes [Node.text ("Title")]) ++ "\n\n" ∧
    Haskell.htmlToMarkdownNode (.elem ("h2") [] [.text ("Title")]) =
      "\n" ++ hashes 2 ++ " " ++ jsTrim (textContentNodes [Node.text ("Title")]) ++ "\n\n" :=
  heading_emission ("h2") 2 (by decide) [] [.text ("Title")]

/-- C2 (counterexample): the text node with content space a space space
b space is appended by the shared extractor with runs collapsed but not
trimmed, and by the Haskell scraper trimmed but not collapsed and with
a trailing space added; neither equals the trimmed and collapsed
content the claim requires. -/
theorem text_claim_counterexample :
    Common.htmlToMarkdownNode (.text (" a  b ")) = " a b " ∧
    Common.htmlToMarkdownNode (.text (" a  b ")) ≠ "a b" ∧
    Haskell.htmlToMarkdownNode (.text (" a  b ")) = "a  b " ∧
    Haskell.htmlToMarkdownNode (.text (" a  b ")) ≠ "a b" := by
  decide

/-- C2 (amended): for a text node whose trimmed content is nonempty,
the shared extractor appends the content with each whitespace run
collapsed to one space but without trimming, and that contribution is
unchanged by collapsing again; the Haskell scraper appends the trimmed
content, uncollapsed, followed by one space. A text node that is blank
after trimming contributes nothing in either extractor. -/
theorem text_node_contribution (c : String) :
    (jsTrim c ≠ "" →
      Common.htmlToMarkdownNode (.text c) = collapseWs c ∧
      collapseWs (Common.htmlToMarkdownNode (.text c)) = Common.htmlToMarkdownNode (.text c) ∧
      Haskell.htmlToMarkdownNode (.text c) = jsTrim c ++ " ") ∧
    (jsTrim c = "" →
      Common.htmlToMarkdownNode (.text c) = "" ∧
      Haskell.htmlToMarkdownNode (.text c) = "") := by
  have hc : Common.htmlToMarkdownNode (.text c) =
      if jsTrim c ≠ "" then collapseWs c else "" := by
    rw [Common.htmlToMarkdownNode]
  have hh : Haskell.htmlToMarkdownNode (.text c) =
      if jsTrim c ≠ "" then jsTrim c ++ " " else "" := by
    rw [Haskell.htmlToMarkdownNode]
  constructor
  · intro h
    rw [hc, hh, if_pos h, if_pos h]
    exact ⟨rfl, collapseWs_idempotent c, rfl⟩
  · intro h
    rw [hc, hh, if_neg (fun hne => hne h), if_neg (fun hne => hne h)]
    exact ⟨rfl, rfl⟩

theorem text_node_contribution_witness :
    (Common.htmlToMarkdownNode (.text (" a  b ")) = collapseWs (" a  b ") ∧
     collapseWs (Common.htmlToMarkdownNode (.text (" a  b "))) =
       Common.htmlToMarkdownNode (.text (" a  b ")) ∧
     Haskell.htmlToMarkdownNode (.text (" a  b ")) = jsTrim (" a  b ") ++ " ") ∧
    (Common.htmlToMarkdownNode (.text (" \t ")) = "" ∧
     Haskell.htmlToMarkdownNode (.text (" \t ")) = "") :=
  ⟨(text_node_contribution (" a  b ")).1 (by decide),
   (text_node_contribution (" \t ")).2 (by decide)⟩

/-- C3: for every anchor element, both extractors emit a bracketed link
built from the trimmed flattened text content of the element (no
recursion into nested markup) and the href attribute value; a missing
href attribute yields an empty target and no error, the function being
total. -/
theorem anchor_emission (tag : String) (h : jsToLower tag = "a")
    (attrs : List (String × String)) (children : List Node) (v : String) :
    (getAttribute attrs ("href") = some v →
      Common.htmlToMarkdownNode (.elem tag attrs children) =
        "[" ++ jsTrim (textContentNodes children) ++ "](" ++ v ++ ")" ∧
      Haskell.htmlToMarkdownNode (.elem tag attrs children) =
        "[" ++ jsTrim (textContentNodes children) ++ "](" ++ v ++ ")") ∧
    (getAttribute attrs ("href") = none →
      Common.htmlToMarkdownNode (.elem tag attrs children) =
        "[" ++ jsTrim (textContentNodes children) ++ "]()" ∧
      Haskell.htmlToMarkdownNode (.elem tag attrs children) =
        "[" ++ jsTrim (textContentNodes children) ++ "]()") := by
  have hc : Common.htmlToMarkdownNode (.elem tag attrs children) =
      "[" ++ jsTrim (textContentNodes children) ++ "](" ++
        ((getAttribute attrs ("href")).getD "") ++ ")" := by
    rw [Common.htmlToMarkdownNode, h]
    rfl
  have hh : Haskell.htmlToMarkdownNode (.elem tag attrs children) =
      "[" ++ jsTrim (textContentNodes children) ++ "](" ++
        ((getAttribute attrs ("href")).getD "") ++ ")" := by
    rw [Haskell.htmlToMarkdownNode, h]
    rfl
  constructor
  · intro hv
    rw [hc, hh, hv]
    exact ⟨rfl, rfl⟩
  · intro hv
    rw [hc, hh, hv]
    constructor <;> simp [String.append_assoc]
  
theorem anchor_emission_witness :
    Common.htmlToMarkdownNode
      (.elem ("a") [(("href" : String), "/x")] [.elem ("b") [] [.text ("Click")]]) =
        "[Click](/x)" ∧
    Haskell.htmlToMarkdownNode (.elem ("a") [] [.text ("Click")]) = "[Click]()" := by
  constructor
  · have h := (anchor_emission ("a") (by decide) [(("href" : String), "/x")]
      [.elem ("b") [] [.text ("Click")]] ("/x")).1 (by decide)
    rw [h.1]
    decide
  · have h := (anchor_emission ("a") (by decide) [] [.text ("Click")] ("")).2 (by decide)
    rw [h.2]
    decide

/-- C4 (counterexample): a preformatted element with text space x space
is emitted with a leading newline, trimmed text, and two newlines after
the closing fence, so the output differs from the claimed fenced block
that has no leading newline, untrimmed text, and one trailing
newline. -/
theorem pre_claim_counterexample :
    Common.htmlToMarkdownNode (.elem ("pre") [] [.text (" x ")]) = "\n```\nx\n```\n\n" ∧
    Common.htmlToMarkdownNode (.elem ("pre") [] [.text (" x ")]) ≠ "```\n x \n```\n" ∧
    Common.htmlToMarkdownNode (.elem ("pre") [] [.text ("x")]) ≠ "```\nx\n```\n" ∧
    Haskell.htmlToMarkdownNode (.elem ("pre") [] [.text ("x")]) ≠ "```\nx\n```\n" := by
  decide

/-- C4 (amended): for every preformatted element, both extractors emit
a newline, an opening fence, a newline, the trimmed flattened text
content, a newline, a closing fence, and two trailing newlines. -/
theorem pre_emission (tag : String) (h : jsToLower tag = "pre")
    (attrs : List (String × String)) (children : List Node) :
    Common.htmlToMarkdownNode (.elem tag attrs children) =
      "\n```\n" ++ jsTrim (textContentNodes children) ++ "\n```\n\n" ∧
    Haskell.htmlToMarkdownNode (.elem tag attrs children) =
      "\n```\n" ++ jsTrim (textContentNodes children) ++ "\n```\n\n" :=
  ⟨by rw [Common.htmlToMarkdownNode, h]; rfl, by rw [Haskell.htmlToMarkdownNode, h]; rfl⟩

theorem pre_emission_witness :
    Common.htmlToMarkdownNode (.elem ("pre") [] [.text ("code here")]) =
      "\n```\n" ++ jsTrim (textContentNodes [Node.text ("code here")]) ++ "\n```\n\n" ∧
    Haskell.htmlToMarkdownNode (.elem ("pre") [] [.text ("code here")]) =
      "\n```\n" ++ jsTrim (textContentNodes [Node.text ("code here")]) ++ "\n```\n\n" :=
  pre_emission ("pre") (by decide) [] [.text ("code here")]

/-- C5 (counterexample): a script element nested inside a heading is
not skipped: headings are rendered from their flattened textContent,
which includes the text of script descendants, so the script subtree
contributes characters and the heading output differs from that of the
same heading without the script. The same holds for style, video and
img subtrees nested in any flattened-text context (headings, anchors,
strong, b, em, i, code, pre). -/
theorem skip_claim_counterexample :
    Common.htmlToMarkdownNode
      (.elem ("h2") [] [.text ("T"), .elem ("script") [] [.text ("X")]]) = "\n## TX\n\n" ∧
    Common.htmlToMarkdownNode (.elem ("h2") [] [.text ("T")]) = "\n## T\n\n" ∧
    Common.htmlToMarkdownNode
        (.elem ("h2") [] [.text ("T"), .elem ("script") [] [.text ("X")]]) ≠
      Common.htmlToMarkdownNode (.elem ("h2") [] [.text ("T")]) ∧
    Haskell.htmlToMarkdownNode
      (.elem ("h2") [] [.text ("T"), .elem ("script") [] [.text ("X")]]) = "\n## TX\n\n" := by
  decide

/-- C5 (amended): an element whose lowercased tag is img, video, script
or style contributes nothing to either extractor when it is processed
as a child node in the recursive traversal, whatever its attributes and
subtree, and the contributions of the siblings before and after it at
any such position are unchanged and concatenated in document order;
when such an element instead sits inside an element rendered from its
flattened textContent (a heading, anchor, strong, b, em, i, code or
pre), the text of its subtree is included in that flattened text. -/
theorem skipped_subtree (tag : String)
    (h : jsToLower tag = "img" ∨ jsToLower tag = "video" ∨ jsToLower tag = "script" ∨
      jsToLower tag = "style")
    (attrs : List (String × String)) (kids pre post : List Node) :
    Common.htmlToMarkdownNodes (pre ++ Node.elem tag attrs kids :: post) =
      Common.htmlToMarkdownNodes pre ++ Common.htmlToMarkdownNodes post ∧
    Haskell.htmlToMarkdownNodes (pre ++ Node.elem tag attrs kids :: post) =
      Haskell.htmlToMarkdownNodes pre ++ Haskell.htmlToMarkdownNodes post := by
  have hcz : Common.htmlToMarkdownNode (Node.elem tag attrs kids) = "" := by
    rcases h with h | h | h | h <;> (rw [Common.htmlToMarkdownNode, h]; rfl)
  have hhz : Haskell.htmlToMarkdownNode (Node.elem tag attrs kids) = "" := by
    rcases h with h | h | h | h <;> (rw [Haskell.htmlToMarkdownNode, h]; rfl)
  constructor
  · rw [common_nodes_append, Common.htmlToMarkdownNodes, hcz]
    rfl
  · rw [haskell_nodes_append, Haskell.htmlToMarkdownNodes, hhz]
    rfl

theorem skipped_subtree_witness :
    Common.htmlToMarkdownNodes
      [Node.text ("A"), Node.elem ("img") [(("src" : String), "i.png")] [Node.text ("alt")],
        Node.text ("B")] =
      Common.htmlToMarkdownNodes [Node.text ("A")] ++
        Common.htmlToMarkdownNodes [Node.text ("B")] ∧
    Haskell.htmlToMarkdownNodes
      [Node.text ("A"), Node.elem ("img") [(("src" : String), "i.png")] [Node.text ("alt")],
        Node.text ("B")] =
      Haskell.htmlToMarkdownNodes [Node.text ("A")] ++
        Haskell.htmlToMarkdownNodes [Node.text ("B")] :=
  skipped_subtree ("img") (by decide) [(("src" : String), "i.png")] [Node.text ("alt")]
    [Node.text ("A")] [Node.text ("B")]

/-- C6: for every cleaned content string longer than 3000 characters,
the truncation step returns exactly the first 3000 characters followed
by the fixed truncation notice, of deterministic total length 3000 plus
the notice length; content of length 3000 or less passes through this
step unchanged. -/
theorem truncation_step (s : String) :
    (3000 < s.length →
      truncateContent s = String.mk (s.data.take 3000) ++ TRUNCATION_NOTICE ∧
      (truncateContent s).length = 3000 + TRUNCATION_NOTICE.length) ∧
    (s.length ≤ 3000 → truncateContent s = s) := by
  constructor
  · intro h
    have he : truncateContent s = String.mk (s.data.take 3000) ++ TRUNCATION_NOTICE := by
      rw [truncateContent, if_pos h]
    refine ⟨he, ?_⟩
    rw [he, String.length_append]
    have htake : (String.mk (s.data.take 3000)).length = 3000 := by
      show (s.data.take 3000).length = 3000
      rw [List.length_take]
      have hd : s.length = s.data.length := rfl
      omega
    rw [htake]
  · intro h
    rw [truncateContent, if_neg (by omega)]

theorem truncation_step_witness :
    truncateContent (String.mk (List.replicate 5000 'a')) =
      String.mk ((String.mk (List.replicate 5000 'a')).data.take 3000) ++ TRUNCATION_NOTICE ∧
    (truncateContent (String.mk (List.replicate 5000 'a'))).length =
      3000 + TRUNCATION_NOTICE.length :=
  (truncation_step (String.mk (List.replicate 5000 'a'))).1 (by
    show 3000 < (List.replicate 5000 'a').length
    rw [List.length_replicate]
    omega)

/-- C7: whenever the markdown of an article element is empty after the
whitespace cleanup and trim, extractArticleContent returns the fixed
fallback sentence; the function is total, so no input raises an
error. -/
theorem empty_content_fallback (article : Node)
    (h : cleanupMarkdown (Haskell.htmlToMarkdown article) = "") :
    extractArticleContent article = FALLBACK_TEXT := by
  simp only [extractArticleContent]
  rw [h]
  rfl

theorem empty_content_fallback_witness :
    extractArticleContent
      (.elem ("article") [] [.elem ("img") [(("src" : String), "x.png")] []]) =
      FALLBACK_TEXT := by
  apply empty_content_fallback
  have h1 : Haskell.htmlToMarkdown
      (.elem ("article") [] [.elem ("img") [(("src" : String), "x.png")] []]) = "" := by
    decide
  rw [h1]
  simp [cleanupMarkdown, collapseNlGo, collapseBlankGo, jsTrim]

/-- C8: the extractor is embedded as a total function of the input
tree alone, with no input-output channel and no state besides the
accumulated result, so it is deterministic: equal input trees produce
equal output strings in both variants. -/
theorem extractor_deterministic (t1 t2 : Node) (h : t1 = t2) :
    Common.htmlToMarkdown t1 = Common.htmlToMarkdown t2 ∧
    Haskell.htmlToMarkdown t1 = Haskell.htmlToMarkdown t2 := by
  subst h
  exact ⟨rfl, rfl⟩

theorem extractor_deterministic_witness :
    Common.htmlToMarkdown (.elem ("p") [] [.text ("hi")]) =
      Common.htmlToMarkdown (.elem ("p") [] [.text ("hi")]) ∧
    Haskell.htmlToMarkdown (.elem ("p") [] [.text ("hi")]) =
      Haskell.htmlToMarkdown (.elem ("p") [] [.text ("hi")]) :=
  extractor_deterministic (.elem ("p") [] [.text ("hi")]) (.elem ("p") [] [.text ("hi")]) rfl

/-- Statement helper: whether any keyword check of inferTags fires for
the given title and url. -/
def anyKeyword (title url : String) : Bool :=
  let text := jsToLower (title ++ " " ++ url)
  includes text ("ghc") || includes text ("compiler") || includes text ("release") ||
  includes text ("announce") || includes text ("stack") || includes text ("cabal") ||
  includes text ("hls") || includes text ("language server") || includes text ("foundation") ||
  includes text ("library") || includes text ("package") || includes text ("tutorial") ||
  includes text ("guide") || includes text ("how to") || includes text ("performance") ||
  includes text ("optimization") || includes text ("security") || includes text ("gsoc") ||
  includes text ("google summer") || includes text ("working group") || includes text ("committee")

theorem ite_nil_news (t : List String) : (if t = [] then [("news")] else t) ≠ [] := by
  by_cases h : t = []
  · rw [if_pos h]
    simp
  · rw [if_neg h]
    exact h

/-- C9: for every title and url, inferTags returns a nonempty list, and
when no keyword check fires the list is exactly the news tag. -/
theorem inferTags_nonempty_default (title url : String) :
    inferTags title url ≠ [] ∧
    (anyKeyword title url = false → inferTags title url = [("news")]) := by
  constructor
  · simp only [inferTags]
    exact ite_nil_news _
  · intro h
    simp only [anyKeyword, Bool.or_eq_false_iff] at h
    simp [inferTags, h]

theorem inferTags_nonempty_default_witness :
    inferTags ("foo") ("bar") ≠ [] ∧ inferTags ("foo") ("bar") = [("news")] :=
  ⟨(inferTags_nonempty_default ("foo") ("bar")).1,
   (inferTags_nonempty_default ("foo") ("bar")).2 (by decide)⟩

theorem parseArchivePage_bounded_sorted (cle : String → String → Bool)
    (htrans : ∀ x y z : String, cle x y = true → cle y z = true → cle x z = true)
    (htotal : ∀ x y : String, (cle x y || cle y x) = true) (html : String) :
    (parseArchivePage cle html).length ≤ 10 ∧
    List.Pairwise (fun a b => cle b.date a.date = true) (parseArchivePage cle html) := by
  constructor
  · simp only [parseArchivePage]
    rw [List.length_take]
    exact Nat.min_le_left _ _
  · simp only [parseArchivePage]
    refine List.Pairwise.sublist (List.take_sublist _ _) ?_
    have htransA : ∀ x y z : Article, cle y.date x.date = true → cle z.date y.date = true →
        cle z.date x.date = true := by
      intro x y z hyx hzy
      exact htrans z.date y.date x.date hzy hyx
    have htotalA : ∀ x y : Article, (cle y.date x.date || cle x.date y.date) = true := by
      intro x y
      exact htotal y.date x.date
    exact @List.sorted_mergeSort Article (fun a b => cle b.date a.date) htransA htotalA _

end LangNews
